import Mathlib

set_option maxRecDepth 100000

/-!
Shallow embedding of the pngme codec core.

Bytes are modelled as `Nat` (with `< 256` hypotheses where the Rust types
guarantee byte-ness), strings as their UTF-8 byte sequences (`List Nat`),
characters as Unicode code points (`Nat`), and 32-bit unsigned integers as
`Nat` with explicit `% 2 ^ 32` where Rust truncates.

Sources embedded:
  - `src/lib/src/chunk_type.rs` (`ChunkType`, its validation and flags)
  - `src/src/chunk.rs` (`Chunk`, CRC-32/ISO-HDLC, serialization, parsing)
  - the `Png` container, whose implementation file is not part of the
    sources at hand; it is modelled from the specification (§4.3).
-/

namespace Pngme

/-- A code point is an ASCII alphabetic character: `A`-`Z` or `a`-`z`.
Models Rust's `c.is_ascii() && c.is_alphabetic()`, which for a `char`
holds exactly on the ASCII letters. -/
def isAsciiAlpha (c : Nat) : Bool :=
  (65 ≤ c && c ≤ 90) || (97 ≤ c && c ≤ 122)

/-- UTF-8 continuation byte: `0x80..=0xBF`. -/
def isCont (b : Nat) : Bool :=
  128 ≤ b && b ≤ 191

/-- Two-byte UTF-8 lead byte: `0xC2..=0xDF`. -/
def isLead2 (b : Nat) : Bool :=
  194 ≤ b && b ≤ 223

/-- Three-byte UTF-8 lead byte: `0xE0..=0xEF`. -/
def isLead3 (b : Nat) : Bool :=
  224 ≤ b && b ≤ 239

/-- Four-byte UTF-8 lead byte: `0xF0..=0xF4`. -/
def isLead4 (b : Nat) : Bool :=
  240 ≤ b && b ≤ 244

/-- Valid second byte of a three-byte sequence with lead `b` (excludes
overlong forms after `0xE0` and surrogates after `0xED`). -/
def cont3ok (b b1 : Nat) : Bool :=
  isCont b1 && (!(b == 224) || 160 ≤ b1) && (!(b == 237) || b1 ≤ 159)

/-- Valid second byte of a four-byte sequence with lead `b` (excludes
overlong forms after `0xF0` and values above `0x10FFFF` after `0xF4`). -/
def cont4ok (b b1 : Nat) : Bool :=
  isCont b1 && (!(b == 240) || 144 ≤ b1) && (!(b == 244) || b1 ≤ 143)

/-- Code point of a two-byte sequence. -/
def cp2 (b b1 : Nat) : Nat :=
  (b - 192) * 64 + (b1 - 128)

/-- Code point of a three-byte sequence. -/
def cp3 (b b1 b2 : Nat) : Nat :=
  (b - 224) * 4096 + (b1 - 128) * 64 + (b2 - 128)

/-- Code point of a four-byte sequence. -/
def cp4 (b b1 b2 b3 : Nat) : Nat :=
  (b - 240) * 262144 + (b1 - 128) * 4096 + (b2 - 128) * 64 + (b3 - 128)

/-- UTF-8 decoding of a byte sequence into code points, following the
validity rules of Rust's `std::str::from_utf8` (rejecting overlong forms,
surrogates, and code points above `0x10FFFF`).  Returns `none` exactly on
invalid UTF-8.  The match enumerates the input's first four bytes so each
arm handles the sequences that fit in the available bytes. -/
def utf8DecodeAux : List Nat → Option (List Nat)
  | [] => some []
  | [b] =>
    if b < 128 then Option.map (List.cons b) (utf8DecodeAux []) else none
  | [b, b1] =>
    if b < 128 then Option.map (List.cons b) (utf8DecodeAux [b1])
    else if isLead2 b && isCont b1 then Option.map (List.cons (cp2 b b1)) (utf8DecodeAux [])
    else none
  | [b, b1, b2] =>
    if b < 128 then Option.map (List.cons b) (utf8DecodeAux [b1, b2])
    else if isLead2 b && isCont b1 then Option.map (List.cons (cp2 b b1)) (utf8DecodeAux [b2])
    else if isLead3 b && cont3ok b b1 && isCont b2 then
      Option.map (List.cons (cp3 b b1 b2)) (utf8DecodeAux [])
    else none
  | b :: b1 :: b2 :: b3 :: rest =>
    if b < 128 then Option.map (List.cons b) (utf8DecodeAux (b1 :: b2 :: b3 :: rest))
    else if isLead2 b && isCont b1 then
      Option.map (List.cons (cp2 b b1)) (utf8DecodeAux (b2 :: b3 :: rest))
    else if isLead3 b && cont3ok b b1 && isCont b2 then
      Option.map (List.cons (cp3 b b1 b2)) (utf8DecodeAux (b3 :: rest))
    else if isLead4 b && cont4ok b b1 && isCont b2 && isCont b3 then
      Option.map (List.cons (cp4 b b1 b2 b3)) (utf8DecodeAux rest)
    else none

deriving instance DecidableEq for Except

/-- Errors of `ChunkTypeParseError` from `src/lib/src/chunk_type.rs`.  The `Utf8Error`
payload of `InvalidUtf8` carries no information the codec inspects and is
dropped; `InvalidCharacter` carries the offending code point. -/
inductive ChunkTypeParseError where
  | InvalidLength (n : Nat)
  | InvalidUtf8
  | InvalidCharacter (c : Nat)
deriving DecidableEq, Repr

/-- The `ChunkType` from `src/lib/src/chunk_type.rs`: a wrapper around the 4
raw bytes (`[u8; 4]`, modelled as a list). -/
structure ChunkType where
  bytes : List Nat
deriving DecidableEq, Repr

/-- Validation `ChunkType::validate_content`: length must be 4, the bytes must decode
as UTF-8, and every decoded character must be ASCII alphabetic (first
offender reported). -/
def ChunkType.validate_content (content : List Nat) : Except ChunkTypeParseError Unit :=
  if content.length ≠ 4 then
    .error (.InvalidLength content.length)
  else
    match utf8DecodeAux content with
    | none => .error .InvalidUtf8
    | some chars =>
      match chars.find? (fun c => !isAsciiAlpha c) with
      | some c => .error (.InvalidCharacter c)
      | none => .ok ()

/-- Construction `TryFrom<[u8; 4]> for ChunkType`. -/
def ChunkType.try_from (value : List Nat) : Except ChunkTypeParseError ChunkType :=
  match ChunkType.validate_content value with
  | .error e => .error e
  | .ok _ => .ok ⟨value⟩

/-- Construction `FromStr for ChunkType`: the string's bytes are validated, then the
first four are stored (`[value[0], value[1], value[2], value[3]]`). -/
def ChunkType.from_str (s : List Nat) : Except ChunkTypeParseError ChunkType :=
  match ChunkType.validate_content s with
  | .error e => .error e
  | .ok _ => .ok ⟨[s.getD 0 0, s.getD 1 0, s.getD 2 0, s.getD 3 0]⟩

/-- Rendering `Display for ChunkType`: re-decodes the stored bytes as UTF-8 and
writes the resulting string (whose bytes are exactly the stored bytes).
`none` models the `expect` panic on invalid UTF-8. -/
def ChunkType.display (t : ChunkType) : Option (List Nat) :=
  match utf8DecodeAux t.bytes with
  | none => none
  | some _ => some t.bytes

/-- Bit test `ChunkType::is_5th_bit_set`: `byte & 0b00100000 > 0`. -/
def ChunkType.is_5th_bit_set (byte : Nat) : Bool :=
  decide (Nat.land byte 32 > 0)

/-- Byte of the stored tag at position `i` (`self.0[i]`). -/
def ChunkType.byteAt (t : ChunkType) (i : Nat) : Nat :=
  t.bytes.getD i 0

def ChunkType.is_critical (t : ChunkType) : Bool :=
  !ChunkType.is_5th_bit_set (t.byteAt 0)

def ChunkType.is_public (t : ChunkType) : Bool :=
  !ChunkType.is_5th_bit_set (t.byteAt 1)

def ChunkType.is_reserved_bit_valid (t : ChunkType) : Bool :=
  !ChunkType.is_5th_bit_set (t.byteAt 2)

def ChunkType.is_safe_to_copy (t : ChunkType) : Bool :=
  ChunkType.is_5th_bit_set (t.byteAt 3)

def ChunkType.is_valid (t : ChunkType) : Bool :=
  t.is_reserved_bit_valid

/-- The invariant `ChunkType` construction enforces: 4 bytes, each ASCII
alphabetic. -/
def WellFormedBytes (l : List Nat) : Prop :=
  l.length = 4 ∧ ∀ x ∈ l, isAsciiAlpha x = true

instance (l : List Nat) : Decidable (WellFormedBytes l) := by
  unfold WellFormedBytes; infer_instance

/-- One shift-and-conditionally-xor round of the reflected CRC-32
algorithm; `0xEDB88320` is the reflected ISO-HDLC polynomial. -/
def crcStep (c : Nat) : Nat :=
  if c % 2 = 1 then Nat.xor (c / 2) 3988292384 else c / 2

/-- Fold one message byte into the CRC state (8 rounds). -/
def crcUpdateByte (c b : Nat) : Nat :=
  crcStep (crcStep (crcStep (crcStep (crcStep (crcStep (crcStep (crcStep (Nat.xor c b))))))))

/-- CRC-32/ISO-HDLC of a byte sequence: initial value `0xFFFFFFFF`,
reflected input/output, final xor `0xFFFFFFFF`.  This is the checksum the
`crc` crate computes for `CRC_32_ISO_HDLC`, used by `Chunk::calculate_crc`. -/
def crc32 (msg : List Nat) : Nat :=
  Nat.xor (msg.foldl crcUpdateByte 4294967295) 4294967295

/-- Serialization `u32::to_be_bytes`, big-endian digits of `n % 2 ^ 32`. -/
def toBe32 (n : Nat) : List Nat :=
  [n / 16777216 % 256, n / 65536 % 256, n / 256 % 256, n % 256]

/-- Deserialization `u32::from_be_bytes` of a 4-byte slice. -/
def fromBe32 (l : List Nat) : Nat :=
  l.getD 0 0 * 16777216 + l.getD 1 0 * 65536 + l.getD 2 0 * 256 + l.getD 3 0

/-- Errors of `ChunkParseError` from `src/src/chunk.rs`. -/
inductive ChunkParseError where
  | ChunkTooShort
  | InvalidChunkType (e : ChunkTypeParseError)
  | InvalidCrc (expected : Nat) (actual : Nat)
  | ChunkTooLong
deriving DecidableEq, Repr

/-- The `Chunk` record from `src/src/chunk.rs`. -/
structure Chunk where
  length : Nat
  chunk_type : ChunkType
  data : List Nat
  crc : Nat
deriving DecidableEq, Repr

/-- Checksum `Chunk::calculate_crc`: digest of the type bytes followed by the data. -/
def Chunk.calculate_crc (t : ChunkType) (data : List Nat) : Nat :=
  crc32 (t.bytes ++ data)

/-- Construction `Chunk::new`: `length` is `data.len() as u32` (truncating), `crc` is
computed from the type and data. -/
def Chunk.new (t : ChunkType) (data : List Nat) : Chunk :=
  { length := data.length % 4294967296
    chunk_type := t
    data := data
    crc := Chunk.calculate_crc t data }

/-- Serialization `Chunk::as_bytes`: big-endian length, type bytes, data, big-endian crc. -/
def Chunk.as_bytes (c : Chunk) : List Nat :=
  toBe32 c.length ++ c.chunk_type.bytes ++ c.data ++ toBe32 c.crc

/-- Rust slice indexing `raw.get(a..b)`: `Some` of the sub-slice when
`a <= b` and `b <= raw.len()`, else `None`. -/
def sliceGet (l : List Nat) (a b : Nat) : Option (List Nat) :=
  if a ≤ b ∧ b ≤ l.length then some ((l.drop a).take (b - a)) else none

/-- Parsing `TryFrom<&[u8]> for Chunk` from `src/src/chunk.rs`: read the 4-byte
big-endian length, the 4 type bytes (validated), `length` data bytes and
the 4-byte big-endian stored crc, verify the recomputed crc, and reject
trailing bytes. -/
def Chunk.try_from (raw : List Nat) : Except ChunkParseError Chunk :=
  match sliceGet raw 0 4 with
  | none => .error .ChunkTooShort
  | some lengthBytes =>
    let length := fromBe32 lengthBytes
    match sliceGet raw 4 8 with
    | none => .error .ChunkTooShort
    | some typeBytes =>
      match ChunkType.try_from typeBytes with
      | .error e => .error (.InvalidChunkType e)
      | .ok chunk_type =>
        match sliceGet raw 8 (8 + length) with
        | none => .error .ChunkTooShort
        | some data =>
          match sliceGet raw (8 + length) (8 + length + 4) with
          | none => .error .ChunkTooShort
          | some crcBytes =>
            let crc := fromBe32 crcBytes
            let calculated := Chunk.calculate_crc chunk_type data
            if calculated ≠ crc then .error (.InvalidCrc crc calculated)
            else if 8 + length + 4 < raw.length then .error .ChunkTooLong
            else .ok { length := length, chunk_type := chunk_type, data := data, crc := crc }

/-- The invariant every chunk produced by the core operations satisfies:
well-formed type, byte-valued data matching the stored length (which fits
in 32 bits), and a crc in sync with type and data. -/
def Chunk.WF (c : Chunk) : Prop :=
  WellFormedBytes c.chunk_type.bytes ∧
    c.data.length = c.length ∧
    c.length < 4294967296 ∧
    (∀ b ∈ c.data, b < 256) ∧
    c.crc = Chunk.calculate_crc c.chunk_type c.data

/-- Modelled from the spec: container parse errors (§7): signature
mismatch, or a nested chunk parse error.  The container implementation
(`pngme_lib::png::Png`) is not among the sources at hand; only its callers
(`src/src/util.rs`, `src/src/main.rs`) are. -/
inductive PngParseError where
  | SignatureMismatch
  | InvalidChunk (e : ChunkParseError)
deriving DecidableEq, Repr

/-- The fixed 8-byte magic signature `89 50 4E 47 0D 0A 1A 0A` (§4.3). -/
def pngSignature : List Nat :=
  [137, 80, 78, 71, 13, 10, 26, 10]

/-- Modelled from the spec: the container is an ordered sequence of
chunks (§3). -/
structure Png where
  chunks : List Chunk
deriving DecidableEq, Repr

/-- Modelled from the spec (§4.3): after the signature, repeatedly parse
one chunk at a time; each chunk parse is invoked on the consumed
sub-slice of exactly `12 + length` bytes from the cursor (never applying
the trailing-bytes rule across chunks), the cursor advances by that
amount, until the input is exhausted; the first chunk failure aborts. -/
def Png.parseChunks (r : List Nat) : Except ChunkParseError (List Chunk) :=
  if h : r = [] then .ok []
  else
    let declared := fromBe32 (r.take 4)
    match Chunk.try_from (r.take (12 + declared)) with
    | .error e => .error e
    | .ok c =>
      match Png.parseChunks (r.drop (12 + declared)) with
      | .error e => .error e
      | .ok cs => .ok (c :: cs)
termination_by r.length
decreasing_by
  have hpos : 0 < r.length := List.length_pos.mpr h
  simp only [List.length_drop]
  omega

/-- Modelled from the spec (§4.3): container parse fails with a
signature-mismatch error unless the first 8 bytes equal the magic
signature, then parses the chunks. -/
def Png.try_from (bytes : List Nat) : Except PngParseError Png :=
  if bytes.take 8 = pngSignature then
    match Png.parseChunks (bytes.drop 8) with
    | .error e => .error (.InvalidChunk e)
    | .ok cs => .ok ⟨cs⟩
  else .error .SignatureMismatch

/-- Modelled from the spec (§4.3): the signature followed by each chunk's
serialized bytes in container order. -/
def Png.as_bytes (p : Png) : List Nat :=
  pngSignature ++ (p.chunks.map Chunk.as_bytes).flatten

/-- Modelled from the spec (§4.3): append adds a chunk at the end. -/
def Png.append_chunk (p : Png) (c : Chunk) : Png :=
  ⟨p.chunks ++ [c]⟩

/-- Modelled from the spec (§4.3): first chunk whose type tag renders to
the given string. -/
def Png.chunk_by_type (p : Png) (s : List Nat) : Option Chunk :=
  p.chunks.find? (fun c => decide (c.chunk_type.display = some s))

/-- Remove the first list element satisfying the test, returning it and
the remaining list. -/
def removeFirst (pred : Chunk → Bool) : List Chunk → Option (Chunk × List Chunk)
  | [] => none
  | c :: rest =>
    if pred c then some (c, rest)
    else Option.map (fun x => (x.1, c :: x.2)) (removeFirst pred rest)

/-- Modelled from the spec (§4.3): remove the first chunk whose type
renders to the given string, returning it and the new container state;
`none` when no chunk matches. -/
def Png.remove_chunk (p : Png) (s : List Nat) : Option (Chunk × Png) :=
  Option.map (fun x => (x.1, Png.mk x.2))
    (removeFirst (fun c => decide (c.chunk_type.display = some s)) p.chunks)

/-- Every chunk of the container satisfies the chunk invariant. -/
def Png.WF (p : Png) : Prop :=
  ∀ c ∈ p.chunks, Chunk.WF c

/-- The 4 type bytes of `"RuSt"`, the type tag the repository's tests use. -/
def rustTypeBytes : List Nat :=
  [82, 117, 83, 116]

/-- The bytes of the test payload
`"This is where your secret message will be!"` (42 bytes). -/
def testMessage : List Nat :=
  [84, 104, 105, 115, 32, 105, 115, 32, 119, 104, 101, 114, 101, 32, 121, 111, 117, 114, 32,
   115, 101, 99, 114, 101, 116, 32, 109, 101, 115, 115, 97, 103, 101, 32, 119, 105, 108, 108,
   32, 98, 101, 33]

end Pngme

namespace Pngme

theorem isAsciiAlpha_lt (c : Nat) (h : isAsciiAlpha c = true) : c < 128 := by
  simp only [isAsciiAlpha, Bool.or_eq_true, Bool.and_eq_true, decide_eq_true_eq] at h
  omega

theorem cp2_ge (b b1 : Nat) (h2 : (isLead2 b && isCont b1) = true) : 128 ≤ cp2 b b1 := by
  simp only [isLead2, isCont, Bool.and_eq_true, decide_eq_true_eq] at h2
  simp only [cp2]
  omega

theorem cp3_ge (b b1 b2 : Nat)
    (h3 : (isLead3 b && cont3ok b b1 && isCont b2) = true) : 128 ≤ cp3 b b1 b2 := by
  simp only [isLead3, cont3ok, isCont, Bool.and_eq_true, Bool.or_eq_true, Bool.not_eq_true',
    decide_eq_true_eq, beq_eq_false_iff_ne, ne_eq] at h3
  simp only [cp3]
  obtain ⟨⟨⟨hl, hh⟩, hok⟩, hb2⟩ := h3
  rcases hok with ⟨⟨hcb1a, hcb1b⟩, h224⟩ | hrest
  all_goals omega

theorem cp4_ge (b b1 b2 b3 : Nat)
    (h4 : (isLead4 b && cont4ok b b1 && isCont b2 && isCont b3) = true) : 128 ≤ cp4 b b1 b2 b3 := by
  simp only [isLead4, cont4ok, isCont, Bool.and_eq_true, Bool.or_eq_true, Bool.not_eq_true',
    decide_eq_true_eq, beq_eq_false_iff_ne, ne_eq] at h4
  simp only [cp4]
  obtain ⟨⟨⟨⟨hl, hh⟩, hok⟩, hb2⟩, hb3⟩ := h4
  rcases hok with ⟨⟨hcb1a, hcb1b⟩, h240⟩ | hrest
  all_goals omega

/-- Decoding a byte below 128 always strips it off as one code point. -/
theorem utf8DecodeAux_cons_ascii (b : Nat) (rest : List Nat) (hb : b < 128) :
    utf8DecodeAux (b :: rest) = Option.map (List.cons b) (utf8DecodeAux rest) := by
  cases rest with
  | nil => rw [utf8DecodeAux.eq_2, if_pos hb]
  | cons b1 r1 =>
    cases r1 with
    | nil => rw [utf8DecodeAux.eq_3, if_pos hb]
    | cons b2 r2 =>
      cases r2 with
      | nil => rw [utf8DecodeAux.eq_4, if_pos hb]
      | cons b3 r3 => rw [utf8DecodeAux.eq_5, if_pos hb]

/-- A sequence of bytes below 128 decodes to itself. -/
theorem utf8DecodeAux_of_ascii (l : List Nat) (h : ∀ x ∈ l, x < 128) :
    utf8DecodeAux l = some l := by
  induction l with
  | nil => rfl
  | cons b rest ih =>
    rw [utf8DecodeAux_cons_ascii b rest (h b (List.mem_cons_self b rest)),
      ih (fun x hx => h x (List.mem_cons_of_mem b hx))]
    rfl

/-- If a byte sequence decodes successfully and every produced code point
is below 128, the sequence was those code points verbatim. -/
theorem eq_of_utf8DecodeAux_ascii (l : List Nat) : ∀ cs : List Nat,
    utf8DecodeAux l = some cs → (∀ c ∈ cs, c < 128) → l = cs := by
  induction l using utf8DecodeAux.induct with
  | case1 =>
    intro cs h _
    rw [utf8DecodeAux] at h
    cases h
    rfl
  | case2 b hb ih =>
    intro cs h hc
    rw [utf8DecodeAux, if_pos hb] at h
    obtain ⟨a, ha, rfl⟩ := Option.map_eq_some'.mp h
    rw [ih a ha (fun c hcc => hc c (List.mem_cons_of_mem b hcc))]
  | case3 b hb =>
    intro cs h _
    rw [utf8DecodeAux, if_neg hb] at h
    cases h
  | case4 b b1 hb ih =>
    intro cs h hc
    rw [utf8DecodeAux, if_pos hb] at h
    obtain ⟨a, ha, rfl⟩ := Option.map_eq_some'.mp h
    rw [ih a ha (fun c hcc => hc c (List.mem_cons_of_mem b hcc))]
  | case5 b b1 hb h2 ih =>
    intro cs h hc
    rw [utf8DecodeAux, if_neg hb, if_pos h2] at h
    obtain ⟨a, ha, rfl⟩ := Option.map_eq_some'.mp h
    have := hc (cp2 b b1) (List.mem_cons_self _ _)
    have := cp2_ge b b1 h2
    omega
  | case6 b b1 hb h2 =>
    intro cs h _
    rw [utf8DecodeAux, if_neg hb, if_neg h2] at h
    cases h
  | case7 b b1 b2 hb ih =>
    intro cs h hc
    rw [utf8DecodeAux, if_pos hb] at h
    obtain ⟨a, ha, rfl⟩ := Option.map_eq_some'.mp h
    rw [ih a ha (fun c hcc => hc c (List.mem_cons_of_mem b hcc))]
  | case8 b b1 b2 hb h2 ih =>
    intro cs h hc
    rw [utf8DecodeAux, if_neg hb, if_pos h2] at h
    obtain ⟨a, ha, rfl⟩ := Option.map_eq_some'.mp h
    have := hc (cp2 b b1) (List.mem_cons_self _ _)
    have := cp2_ge b b1 h2
    omega
  | case9 b b1 b2 hb h2 h3 ih =>
    intro cs h hc
    rw [utf8DecodeAux, if_neg hb, if_neg h2, if_pos h3] at h
    obtain ⟨a, ha, rfl⟩ := Option.map_eq_some'.mp h
    have := hc (cp3 b b1 b2) (List.mem_cons_self _ _)
    have := cp3_ge b b1 b2 h3
    omega
  | case10 b b1 b2 hb h2 h3 =>
    intro cs h _
    rw [utf8DecodeAux, if_neg hb, if_neg h2, if_neg h3] at h
    cases h
  | case11 b b1 b2 b3 rest hb ih =>
    intro cs h hc
    rw [utf8DecodeAux, if_pos hb] at h
    obtain ⟨a, ha, rfl⟩ := Option.map_eq_some'.mp h
    rw [ih a ha (fun c hcc => hc c (List.mem_cons_of_mem b hcc))]
  | case12 b b1 b2 b3 rest hb h2 ih =>
    intro cs h hc
    rw [utf8DecodeAux, if_neg hb, if_pos h2] at h
    obtain ⟨a, ha, rfl⟩ := Option.map_eq_some'.mp h
    have := hc (cp2 b b1) (List.mem_cons_self _ _)
    have := cp2_ge b b1 h2
    omega
  | case13 b b1 b2 b3 rest hb h2 h3 ih =>
    intro cs h hc
    rw [utf8DecodeAux, if_neg hb, if_neg h2, if_pos h3] at h
    obtain ⟨a, ha, rfl⟩ := Option.map_eq_some'.mp h
    have := hc (cp3 b b1 b2) (List.mem_cons_self _ _)
    have := cp3_ge b b1 b2 h3
    omega
  | case14 b b1 b2 b3 rest hb h2 h3 h4 ih =>
    intro cs h hc
    rw [utf8DecodeAux, if_neg hb, if_neg h2, if_neg h3, if_pos h4] at h
    obtain ⟨a, ha, rfl⟩ := Option.map_eq_some'.mp h
    have := hc (cp4 b b1 b2 b3) (List.mem_cons_self _ _)
    have := cp4_ge b b1 b2 b3 h4
    omega
  | case15 b b1 b2 b3 rest hb h2 h3 h4 =>
    intro cs h _
    rw [utf8DecodeAux, if_neg hb, if_neg h2, if_neg h3, if_neg h4] at h
    cases h

end Pngme

namespace Pngme

theorem validate_invalid_length (l : List Nat) (h : l.length ≠ 4) :
    ChunkType.validate_content l = .error (.InvalidLength l.length) := by
  unfold ChunkType.validate_content
  rw [if_pos h]

theorem validate_invalid_utf8 (l : List Nat) (hlen : l.length = 4)
    (hdec : utf8DecodeAux l = none) :
    ChunkType.validate_content l = .error .InvalidUtf8 := by
  unfold ChunkType.validate_content
  simp [hlen, hdec]

theorem validate_invalid_char (l : List Nat) (chars : List Nat) (c : Nat)
    (hlen : l.length = 4) (hdec : utf8DecodeAux l = some chars)
    (hfind : chars.find? (fun c => !isAsciiAlpha c) = some c) :
    ChunkType.validate_content l = .error (.InvalidCharacter c) := by
  unfold ChunkType.validate_content
  simp [hlen, hdec, hfind]

/-- Validation succeeds exactly on 4 ASCII-alphabetic bytes. -/
theorem validate_content_ok_iff (l : List Nat) :
    ChunkType.validate_content l = .ok () ↔ WellFormedBytes l := by
  constructor
  · intro h
    by_cases hlen : l.length = 4
    · cases hdec : utf8DecodeAux l with
      | none => rw [validate_invalid_utf8 l hlen hdec] at h; cases h
      | some chars =>
        cases hfind : chars.find? (fun c => !isAsciiAlpha c) with
        | some c => rw [validate_invalid_char l chars c hlen hdec hfind] at h; cases h
        | none =>
          have hall : ∀ c ∈ chars, isAsciiAlpha c = true := by
            intro c hcmem
            have := List.find?_eq_none.mp hfind c hcmem
            simpa using this
          have hasc : ∀ c ∈ chars, c < 128 := fun c hcm => isAsciiAlpha_lt c (hall c hcm)
          have hlc := eq_of_utf8DecodeAux_ascii l chars hdec hasc
          subst hlc
          exact ⟨hlen, hall⟩
    · rw [validate_invalid_length l hlen] at h; cases h
  · intro hwf
    obtain ⟨hlen, halpha⟩ := hwf
    have hdec := utf8DecodeAux_of_ascii l (fun x hx => isAsciiAlpha_lt x (halpha x hx))
    have hfind : l.find? (fun c => !isAsciiAlpha c) = none :=
      List.find?_eq_none.mpr (fun x hx => by simp [halpha x hx])
    unfold ChunkType.validate_content
    simp [hlen, hdec, hfind]

/-- Construction from well-formed raw bytes succeeds and stores them. -/
theorem ChunkType.try_from_wf (l : List Nat) (h : WellFormedBytes l) :
    ChunkType.try_from l = .ok ⟨l⟩ := by
  unfold ChunkType.try_from
  rw [(validate_content_ok_iff l).mpr h]

/-- Successful construction from raw bytes only happens on well-formed
bytes and stores them verbatim. -/
theorem ChunkType.try_from_ok (l : List Nat) (t : ChunkType)
    (h : ChunkType.try_from l = .ok t) : t.bytes = l ∧ WellFormedBytes l := by
  unfold ChunkType.try_from at h
  cases hv : ChunkType.validate_content l with
  | error e => rw [hv] at h; simp at h
  | ok u =>
    cases u
    rw [hv] at h
    simp at h
    subst h
    exact ⟨rfl, (validate_content_ok_iff l).mp hv⟩

theorem cons_getD_four0 (l : List Nat) (h : l.length = 4) :
    [l.getD 0 0, l.getD 1 0, l.getD 2 0, l.getD 3 0] = l := by
  cases l with
  | nil => simp at h
  | cons a t0 =>
    cases t0 with
    | nil => simp at h
    | cons b t1 =>
      cases t1 with
      | nil => simp at h
      | cons c t2 =>
        cases t2 with
        | nil => simp at h
        | cons d t3 =>
          cases t3 with
          | nil => rfl
          | cons e t4 => simp at h

theorem cons_getD_four (l : List Nat) (h : l.length = 4) :
    [l[0]?.getD 0, l[1]?.getD 0, l[2]?.getD 0, l[3]?.getD 0] = l := by
  cases l with
  | nil => simp at h
  | cons a t0 =>
    cases t0 with
    | nil => simp at h
    | cons b t1 =>
      cases t1 with
      | nil => simp at h
      | cons c t2 =>
        cases t2 with
        | nil => simp at h
        | cons d t3 =>
          cases t3 with
          | nil => rfl
          | cons e t4 => simp at h

/-- Construction from a well-formed string succeeds and stores its bytes. -/
theorem ChunkType.from_str_wf (s : List Nat) (h : WellFormedBytes s) :
    ChunkType.from_str s = .ok ⟨s⟩ := by
  unfold ChunkType.from_str
  rw [(validate_content_ok_iff s).mpr h]
  rw [cons_getD_four0 s h.1]

/-- Successful construction from a string only happens on well-formed
strings and stores their bytes verbatim. -/
theorem ChunkType.from_str_ok (s : List Nat) (t : ChunkType)
    (h : ChunkType.from_str s = .ok t) : t.bytes = s ∧ WellFormedBytes s := by
  unfold ChunkType.from_str at h
  cases hv : ChunkType.validate_content s with
  | error e => rw [hv] at h; simp at h
  | ok u =>
    cases u
    have hwf := (validate_content_ok_iff s).mp hv
    rw [hv] at h
    simp at h
    subst h
    exact ⟨by rw [cons_getD_four s hwf.1], hwf⟩

theorem ChunkType.from_str_invalid_length (s : List Nat) (h : s.length ≠ 4) :
    ChunkType.from_str s = .error (.InvalidLength s.length) := by
  unfold ChunkType.from_str ChunkType.validate_content
  rw [if_pos h]

theorem ChunkType.try_from_invalid_utf8 (l : List Nat) (hlen : l.length = 4)
    (hdec : utf8DecodeAux l = none) :
    ChunkType.try_from l = .error .InvalidUtf8 := by
  unfold ChunkType.try_from ChunkType.validate_content
  simp [hlen, hdec]

theorem ChunkType.try_from_invalid_char (l : List Nat) (chars : List Nat) (c : Nat)
    (hlen : l.length = 4) (hdec : utf8DecodeAux l = some chars)
    (hfind : chars.find? (fun c => !isAsciiAlpha c) = some c) :
    ChunkType.try_from l = .error (.InvalidCharacter c) := by
  unfold ChunkType.try_from ChunkType.validate_content
  simp [hlen, hdec, hfind]

/-- Rendering succeeds on well-formed stored bytes and returns them. -/
theorem ChunkType.display_wf (t : ChunkType) (h : WellFormedBytes t.bytes) :
    t.display = some t.bytes := by
  unfold ChunkType.display
  rw [utf8DecodeAux_of_ascii _ (fun x hx => isAsciiAlpha_lt x (h.2 x hx))]

end Pngme

namespace Pngme

theorem crcStep_lt (c : Nat) (h : c < 2 ^ 32) : crcStep c < 2 ^ 32 := by
  have hd : c / 2 < 2 ^ 32 := lt_of_le_of_lt (Nat.div_le_self c 2) h
  unfold crcStep
  split
  · exact Nat.xor_lt_two_pow hd (by norm_num)
  · exact hd

theorem crcUpdateByte_lt (c b : Nat) (hc : c < 2 ^ 32) (hb : b < 256) :
    crcUpdateByte c b < 2 ^ 32 := by
  have h0 : Nat.xor c b < 2 ^ 32 := Nat.xor_lt_two_pow hc (lt_trans hb (by norm_num))
  unfold crcUpdateByte
  exact crcStep_lt _ (crcStep_lt _ (crcStep_lt _ (crcStep_lt _ (crcStep_lt _ (crcStep_lt _
    (crcStep_lt _ (crcStep_lt _ h0)))))))

theorem crc32_foldl_lt (msg : List Nat) (a : Nat) (ha : a < 2 ^ 32)
    (h : ∀ b ∈ msg, b < 256) : msg.foldl crcUpdateByte a < 2 ^ 32 := by
  induction msg generalizing a with
  | nil => simpa using ha
  | cons x xs ih =>
    simp only [List.foldl_cons]
    exact ih (crcUpdateByte a x)
      (crcUpdateByte_lt a x ha (h x (List.mem_cons_self x xs)))
      (fun b hb => h b (List.mem_cons_of_mem x hb))

/-- The CRC-32 of a byte message fits in 32 bits. -/
theorem crc32_lt (msg : List Nat) (h : ∀ b ∈ msg, b < 256) : crc32 msg < 2 ^ 32 := by
  unfold crc32
  exact Nat.xor_lt_two_pow (crc32_foldl_lt msg 4294967295 (by norm_num) h) (by norm_num)

/-- The crc field of any chunk built from byte data is below `2 ^ 32`. -/
theorem calculate_crc_lt (t : ChunkType) (data : List Nat)
    (ht : ∀ b ∈ t.bytes, b < 256) (hd : ∀ b ∈ data, b < 256) :
    Chunk.calculate_crc t data < 2 ^ 32 := by
  unfold Chunk.calculate_crc
  refine crc32_lt _ (fun b hb => ?_)
  rcases List.mem_append.mp hb with h | h
  · exact ht b h
  · exact hd b h

theorem wf_bytes_lt (l : List Nat) (h : WellFormedBytes l) : ∀ b ∈ l, b < 256 := by
  intro b hb
  have := isAsciiAlpha_lt b (h.2 b hb)
  omega

theorem toBe32_length (n : Nat) : (toBe32 n).length = 4 := rfl

theorem toBe32_bytes_lt (n : Nat) : ∀ b ∈ toBe32 n, b < 256 := by
  intro b hb
  simp only [toBe32, List.mem_cons, List.not_mem_nil, or_false] at hb
  rcases hb with h | h | h | h <;> subst h <;> omega

theorem fromBe32_toBe32 (n : Nat) (h : n < 2 ^ 32) : fromBe32 (toBe32 n) = n := by
  simp only [toBe32, fromBe32, List.getD_cons_zero, List.getD_cons_succ]
  omega

theorem toBe32_fromBe32 (a b c d : Nat) (ha : a < 256) (hb : b < 256) (hc : c < 256)
    (hd : d < 256) : toBe32 (fromBe32 [a, b, c, d]) = [a, b, c, d] := by
  simp only [toBe32, fromBe32, List.getD_cons_zero, List.getD_cons_succ, List.cons.injEq,
    and_true]
  refine ⟨?_, ?_, ?_, ?_⟩ <;> omega

theorem fromBe32_lt (a b c d : Nat) (ha : a < 256) (hb : b < 256) (hc : c < 256)
    (hd : d < 256) : fromBe32 [a, b, c, d] < 2 ^ 32 := by
  simp only [fromBe32, List.getD_cons_zero, List.getD_cons_succ]
  omega

/-- Slicing out the middle component of a concatenation. -/
theorem sliceGet_middle (p q r : List Nat) :
    sliceGet (p ++ (q ++ r)) p.length (p.length + q.length) = some q := by
  unfold sliceGet
  rw [if_pos ⟨Nat.le_add_right _ _, by simp [List.length_append]⟩]
  rw [List.drop_left, Nat.add_sub_cancel_left, List.take_left]

end Pngme

namespace Pngme

theorem sliceGet_middle_nums (p q r : List Nat) (a b : Nat) (ha : a = p.length)
    (hb : b = p.length + q.length) : sliceGet (p ++ (q ++ r)) a b = some q := by
  subst ha
  subst hb
  exact sliceGet_middle p q r

/-- The four reads `Chunk::try_from` performs, on a buffer laid out as a
serialized chunk. -/
theorem slice_of_chunk_bytes (L T D C : List Nat) (hL : L.length = 4) (hT : T.length = 4)
    (hC : C.length = 4) :
    sliceGet (L ++ T ++ D ++ C) 0 4 = some L ∧
    sliceGet (L ++ T ++ D ++ C) 4 8 = some T ∧
    sliceGet (L ++ T ++ D ++ C) 8 (8 + D.length) = some D ∧
    sliceGet (L ++ T ++ D ++ C) (8 + D.length) (8 + D.length + 4) = some C := by
  refine ⟨?_, ?_, ?_, ?_⟩
  · have he : L ++ T ++ D ++ C = [] ++ (L ++ (T ++ (D ++ C))) := by
      simp [List.append_assoc]
    rw [he]
    exact sliceGet_middle_nums [] L (T ++ (D ++ C)) 0 4 (by simp) (by simp [hL])
  · have he : L ++ T ++ D ++ C = L ++ (T ++ (D ++ C)) := by
      simp [List.append_assoc]
    rw [he]
    exact sliceGet_middle_nums L T (D ++ C) 4 8 (by omega) (by omega)
  · have he : L ++ T ++ D ++ C = (L ++ T) ++ (D ++ C) := by
      simp [List.append_assoc]
    rw [he]
    refine sliceGet_middle_nums (L ++ T) D C 8 (8 + D.length) ?_ ?_
    · simp [List.length_append, hL, hT]
    · simp [List.length_append, hL, hT]
  · have he : L ++ T ++ D ++ C = (L ++ T ++ D) ++ (C ++ []) := by
      simp [List.append_assoc]
    rw [he]
    refine sliceGet_middle_nums (L ++ T ++ D) C [] (8 + D.length) (8 + D.length + 4) ?_ ?_
    · simp [List.length_append, hL, hT]
      omega
    · simp [List.length_append, hL, hT, hC]
      omega

/-- Parsing the serialization of a well-formed chunk recovers it exactly. -/
theorem chunk_roundtrip_wf (c : Chunk) (h : Chunk.WF c) :
    Chunk.try_from c.as_bytes = .ok c := by
  obtain ⟨htype, hdlen, hlen32, hdata, hcrc⟩ := h
  have hcrclt : c.crc < 2 ^ 32 := by
    rw [hcrc]
    exact calculate_crc_lt _ _ (wf_bytes_lt _ htype) hdata
  obtain ⟨hs0, hs1, hs2, hs3⟩ := slice_of_chunk_bytes (toBe32 c.length) c.chunk_type.bytes
    c.data (toBe32 c.crc) (toBe32_length _) htype.1 (toBe32_length _)
  rw [hdlen] at hs2 hs3
  have hflen : fromBe32 (toBe32 c.length) = c.length := fromBe32_toBe32 _ hlen32
  have hfcrc : fromBe32 (toBe32 c.crc) = c.crc := fromBe32_toBe32 _ hcrclt
  have htf : ChunkType.try_from c.chunk_type.bytes = .ok c.chunk_type :=
    ChunkType.try_from_wf _ htype
  have hblen : (toBe32 c.length ++ c.chunk_type.bytes ++ c.data ++ toBe32 c.crc).length =
      12 + c.length := by
    simp [List.length_append, toBe32_length, htype.1, hdlen]
    omega
  show Chunk.try_from (toBe32 c.length ++ c.chunk_type.bytes ++ c.data ++ toBe32 c.crc) = .ok c
  unfold Chunk.try_from
  simp only [hs0, hflen, hs1, htf, hs2, hs3, hfcrc]
  rw [if_neg (by simp [hcrc]), if_neg (by rw [hblen]; omega)]

end Pngme

namespace Pngme

theorem sliceGet_some_iff (l s : List Nat) (a b : Nat) :
    sliceGet l a b = some s ↔ a ≤ b ∧ b ≤ l.length ∧ s = (l.drop a).take (b - a) := by
  unfold sliceGet
  split
  · rename_i h
    constructor
    · intro hs
      exact ⟨h.1, h.2, (Option.some.inj hs).symm⟩
    · intro hs
      rw [hs.2.2]
  · rename_i h
    constructor
    · intro hs
      cases hs
    · intro hs
      exact absurd ⟨hs.1, hs.2.1⟩ h

theorem toBe32_fromBe32_list (l : List Nat) (hlen : l.length = 4) (hb : ∀ x ∈ l, x < 256) :
    toBe32 (fromBe32 l) = l := by
  cases l with
  | nil => simp at hlen
  | cons a t0 =>
    cases t0 with
    | nil => simp at hlen
    | cons b t1 =>
      cases t1 with
      | nil => simp at hlen
      | cons c t2 =>
        cases t2 with
        | nil => simp at hlen
        | cons d t3 =>
          cases t3 with
          | nil =>
            exact toBe32_fromBe32 a b c d (hb a (by simp)) (hb b (by simp)) (hb c (by simp))
              (hb d (by simp))
          | cons e t4 => simp at hlen

theorem fromBe32_lt_list (l : List Nat) (hlen : l.length = 4) (hb : ∀ x ∈ l, x < 256) :
    fromBe32 l < 2 ^ 32 := by
  cases l with
  | nil => simp at hlen
  | cons a t0 =>
    cases t0 with
    | nil => simp at hlen
    | cons b t1 =>
      cases t1 with
      | nil => simp at hlen
      | cons c t2 =>
        cases t2 with
        | nil => simp at hlen
        | cons d t3 =>
          cases t3 with
          | nil =>
            exact fromBe32_lt a b c d (hb a (by simp)) (hb b (by simp)) (hb c (by simp))
              (hb d (by simp))
          | cons e t4 => simp at hlen

/-- A buffer of length `12 + n` splits into the four fields a chunk parse
reads. -/
theorem buffer_decomp (raw : List Nat) (n : Nat) (hlen : raw.length = 12 + n) :
    raw = raw.take 4 ++ (raw.drop 4).take 4 ++ (raw.drop 8).take n ++ (raw.drop (8 + n)).take 4 := by
  have h1 : raw.take 4 ++ raw.drop 4 = raw := List.take_append_drop 4 raw
  have h2 : (raw.drop 4).take 4 ++ (raw.drop 4).drop 4 = raw.drop 4 := List.take_append_drop _ _
  have h3 : (raw.drop 4).drop 4 = raw.drop 8 := by
    rw [List.drop_drop]
  have h4 : (raw.drop 8).take n ++ (raw.drop 8).drop n = raw.drop 8 := List.take_append_drop _ _
  have h5 : (raw.drop 8).drop n = raw.drop (8 + n) := by
    rw [List.drop_drop]
  have h6 : (raw.drop (8 + n)).take 4 = raw.drop (8 + n) := by
    apply List.take_of_length_le
    rw [List.length_drop]
    omega
  rw [h6, List.append_assoc, List.append_assoc, ← h5, h4, ← h3, h2, h1]

end Pngme

namespace Pngme

/-- Inversion of a successful chunk parse on a byte buffer: the buffer is
exactly the serialization of the returned chunk, the chunk satisfies the
invariant, and exactly `12 + length` bytes were consumed. -/
theorem chunk_try_from_ok_inv (raw : List Nat) (c : Chunk) (hb : ∀ x ∈ raw, x < 256)
    (h : Chunk.try_from raw = .ok c) :
    raw = c.as_bytes ∧ Chunk.WF c ∧ raw.length = 12 + c.length := by
  unfold Chunk.try_from at h
  cases hs0 : sliceGet raw 0 4 with
  | none => rw [hs0] at h; simp at h
  | some lb =>
    rw [hs0] at h
    cases hs1 : sliceGet raw 4 8 with
    | none => simp only [hs1] at h; simp at h
    | some tb =>
      simp only [hs1] at h
      cases htf : ChunkType.try_from tb with
      | error e => simp only [htf] at h; simp at h
      | ok ct =>
        simp only [htf] at h
        cases hs2 : sliceGet raw 8 (8 + fromBe32 lb) with
        | none => simp only [hs2] at h; simp at h
        | some data =>
          simp only [hs2] at h
          cases hs3 : sliceGet raw (8 + fromBe32 lb) (8 + fromBe32 lb + 4) with
          | none => simp only [hs3] at h; simp at h
          | some cb =>
            simp only [hs3] at h
            by_cases hcrc : Chunk.calculate_crc ct data ≠ fromBe32 cb
            · rw [if_pos hcrc] at h; simp at h
            · rw [if_neg hcrc] at h
              by_cases htrail : 8 + fromBe32 lb + 4 < raw.length
              · rw [if_pos htrail] at h; simp at h
              · rw [if_neg htrail] at h
                simp only [Except.ok.injEq] at h
                obtain ⟨hctb, htbwf⟩ := ChunkType.try_from_ok tb ct htf
                obtain ⟨hab, hblen, hlb⟩ := (sliceGet_some_iff raw lb 0 4).mp hs0
                obtain ⟨hab1, hblen1, htb⟩ := (sliceGet_some_iff raw tb 4 8).mp hs1
                obtain ⟨hab2, hblen2, hdata⟩ :=
                  (sliceGet_some_iff raw data 8 (8 + fromBe32 lb)).mp hs2
                obtain ⟨hab3, hblen3, hcb⟩ :=
                  (sliceGet_some_iff raw cb (8 + fromBe32 lb) (8 + fromBe32 lb + 4)).mp hs3
                have hrawlen : raw.length = 12 + fromBe32 lb := by omega
                have hlblen : lb.length = 4 := by
                  rw [hlb]
                  simp [List.length_take, List.length_drop]
                  omega
                have htblen : tb.length = 4 := by
                  rw [htb]
                  simp [List.length_take, List.length_drop]
                  omega
                have hcblen : cb.length = 4 := by
                  rw [hcb]
                  simp [List.length_take, List.length_drop]
                  omega
                have hdatalen : data.length = fromBe32 lb := by
                  rw [hdata]
                  simp [List.length_take, List.length_drop]
                  omega
                have hlbb : ∀ x ∈ lb, x < 256 := by
                  intro x hx
                  rw [hlb] at hx
                  exact hb x (List.take_subset _ _ (by simpa using hx))
                have hcbb : ∀ x ∈ cb, x < 256 := by
                  intro x hx
                  rw [hcb] at hx
                  exact hb x (List.drop_subset _ _ (List.take_subset _ _ hx))
                have hdatab : ∀ x ∈ data, x < 256 := by
                  intro x hx
                  rw [hdata] at hx
                  exact hb x (List.drop_subset _ _ (List.take_subset _ _ hx))
                subst h
                refine ⟨?_, ⟨?_, ?_, ?_, ?_, ?_⟩, ?_⟩
                · show raw = toBe32 (fromBe32 lb) ++ ct.bytes ++ data ++ toBe32 (fromBe32 cb)
                  rw [toBe32_fromBe32_list lb hlblen hlbb, toBe32_fromBe32_list cb hcblen hcbb,
                    hctb]
                  have h40 : (4 : Nat) - 0 = 4 := rfl
                  have h84 : (8 : Nat) - 4 = 4 := rfl
                  rw [h40, List.drop_zero] at hlb
                  rw [h84] at htb
                  rw [Nat.add_sub_cancel_left] at hdata
                  rw [Nat.add_sub_cancel_left] at hcb
                  have hd := buffer_decomp raw (fromBe32 lb) hrawlen
                  rw [← hlb, ← htb, ← hdata, ← hcb] at hd
                  exact hd
                · show WellFormedBytes ct.bytes
                  rw [hctb]
                  exact htbwf
                · exact hdatalen
                · exact fromBe32_lt_list lb hlblen hlbb
                · exact hdatab
                · show fromBe32 cb = Chunk.calculate_crc ct data
                  exact (not_not.mp hcrc).symm
                · exact hrawlen

end Pngme

namespace Pngme

theorem take_exact (l1 l2 : List Nat) (n : Nat) (h : l1.length = n) :
    (l1 ++ l2).take n = l1 := by
  subst h
  exact List.take_left l1 l2

theorem drop_exact (l1 l2 : List Nat) (n : Nat) (h : l1.length = n) :
    (l1 ++ l2).drop n = l2 := by
  subst h
  exact List.drop_left l1 l2

theorem as_bytes_length (c : Chunk) (hty : c.chunk_type.bytes.length = 4)
    (hd : c.data.length = c.length) : c.as_bytes.length = 12 + c.length := by
  simp [Chunk.as_bytes, List.length_append, toBe32_length, hty, hd]
  omega

theorem parseChunks_nil : Png.parseChunks [] = .ok [] := by
  rw [Png.parseChunks]
  rfl

/-- Parsing the concatenated serializations of well-formed chunks yields
exactly those chunks. -/
theorem parseChunks_flatten (cs : List Chunk) (h : ∀ c ∈ cs, Chunk.WF c) :
    Png.parseChunks (cs.map Chunk.as_bytes).flatten = .ok cs := by
  induction cs with
  | nil => exact parseChunks_nil
  | cons c rest ih =>
    have hwfc : Chunk.WF c := h c (List.mem_cons_self c rest)
    obtain ⟨htype, hdlen, hlen32, hdata, hcrc⟩ := hwfc
    have hlen : c.as_bytes.length = 12 + c.length := as_bytes_length c htype.1 hdlen
    have hflat : ((c :: rest).map Chunk.as_bytes).flatten =
        c.as_bytes ++ (rest.map Chunk.as_bytes).flatten := by
      simp
    rw [hflat]
    have hne : c.as_bytes ++ (rest.map Chunk.as_bytes).flatten ≠ [] := by
      intro hcon
      have := congrArg List.length hcon
      simp [List.length_append, hlen] at this
    rw [Png.parseChunks, dif_neg hne]
    have htake4 : (c.as_bytes ++ (rest.map Chunk.as_bytes).flatten).take 4 = toBe32 c.length := by
      have h1 : c.as_bytes = toBe32 c.length ++
          (c.chunk_type.bytes ++ (c.data ++ toBe32 c.crc)) := by
        simp [Chunk.as_bytes]
      rw [h1, List.append_assoc]
      rw [take_exact _ _ 4 (toBe32_length c.length)]
    have hT4 : fromBe32 ((c.as_bytes ++ (rest.map Chunk.as_bytes).flatten).take 4) = c.length := by
      rw [htake4, fromBe32_toBe32 _ hlen32]
    have htake : (c.as_bytes ++ (rest.map Chunk.as_bytes).flatten).take (12 + c.length) =
        c.as_bytes := take_exact _ _ _ hlen
    have hdrop : (c.as_bytes ++ (rest.map Chunk.as_bytes).flatten).drop (12 + c.length) =
        (rest.map Chunk.as_bytes).flatten := drop_exact _ _ _ hlen
    have hrt : Chunk.try_from c.as_bytes = .ok c :=
      chunk_roundtrip_wf c ⟨htype, hdlen, hlen32, hdata, hcrc⟩
    have hih := ih (fun x hx => h x (List.mem_cons_of_mem c hx))
    simp only [hT4, htake, hdrop, hrt, hih]

end Pngme

namespace Pngme

theorem pngSignature_length : pngSignature.length = 8 := rfl

/-- Serializing a well-formed container and parsing the bytes back
recovers the container exactly. -/
theorem png_roundtrip_wf (p : Png) (h : Png.WF p) : Png.try_from p.as_bytes = .ok p := by
  unfold Png.try_from Png.as_bytes
  rw [take_exact _ _ 8 pngSignature_length, if_pos rfl,
    drop_exact _ _ 8 pngSignature_length, parseChunks_flatten p.chunks h]

/-- Inversion of a successful chunk-sequence parse on a byte buffer: the
buffer is exactly the concatenation of the returned chunks'
serializations, and every returned chunk is well-formed. -/
theorem parseChunks_ok_inv : ∀ (n : Nat) (r : List Nat) (cs : List Chunk), r.length ≤ n →
    (∀ x ∈ r, x < 256) → Png.parseChunks r = .ok cs →
    (cs.map Chunk.as_bytes).flatten = r ∧ ∀ c ∈ cs, Chunk.WF c := by
  intro n
  induction n with
  | zero =>
    intro r cs hl hb h
    have hr : r = [] := List.eq_nil_of_length_eq_zero (by omega)
    subst hr
    rw [parseChunks_nil] at h
    cases h
    exact ⟨rfl, by simp⟩
  | succ n ih =>
    intro r cs hl hb h
    by_cases hr : r = []
    · subst hr
      rw [parseChunks_nil] at h
      cases h
      exact ⟨rfl, by simp⟩
    · rw [Png.parseChunks, dif_neg hr] at h
      dsimp only at h
      cases hc : Chunk.try_from (r.take (12 + fromBe32 (r.take 4))) with
      | error e => rw [hc] at h; simp at h
      | ok c =>
        rw [hc] at h
        cases hrest : Png.parseChunks (r.drop (12 + fromBe32 (r.take 4))) with
        | error e => simp only [hrest] at h; simp at h
        | ok cs2 =>
          rw [hrest] at h
          simp only [Except.ok.injEq] at h
          subst h
          have hbt : ∀ x ∈ r.take (12 + fromBe32 (r.take 4)), x < 256 :=
            fun x hx => hb x (List.take_subset _ _ hx)
          obtain ⟨heq, hwf, hclen⟩ := chunk_try_from_ok_inv _ c hbt hc
          have hdlen : (r.drop (12 + fromBe32 (r.take 4))).length ≤ n := by
            rw [List.length_drop]
            have hpos : 0 < r.length := List.length_pos.mpr hr
            omega
          have hbd : ∀ x ∈ r.drop (12 + fromBe32 (r.take 4)), x < 256 :=
            fun x hx => hb x (List.drop_subset _ _ hx)
          obtain ⟨hflat, hwfs⟩ := ih _ cs2 hdlen hbd hrest
          constructor
          · have hcons : ((c :: cs2).map Chunk.as_bytes).flatten =
                c.as_bytes ++ (cs2.map Chunk.as_bytes).flatten := by
              simp
            rw [hcons, ← heq, hflat]
            exact List.take_append_drop _ r
          · intro x hx
            rcases List.mem_cons.mp hx with hx | hx
            · subst hx
              exact hwf
            · exact hwfs x hx

end Pngme

namespace Pngme

/-- Inversion of a successful container parse: the input was exactly the
container's serialization, and all parsed chunks are well-formed. -/
theorem png_try_from_ok_inv (bytes : List Nat) (p : Png) (hb : ∀ x ∈ bytes, x < 256)
    (h : Png.try_from bytes = .ok p) : p.as_bytes = bytes ∧ Png.WF p := by
  unfold Png.try_from at h
  by_cases hsig : bytes.take 8 = pngSignature
  · rw [if_pos hsig] at h
    cases hpc : Png.parseChunks (bytes.drop 8) with
    | error e => rw [hpc] at h; simp at h
    | ok cs =>
      rw [hpc] at h
      simp only [Except.ok.injEq] at h
      subst h
      obtain ⟨hflat, hwf⟩ := parseChunks_ok_inv (bytes.drop 8).length _ cs le_rfl
        (fun x hx => hb x (List.drop_subset _ _ hx)) hpc
      constructor
      · show pngSignature ++ (cs.map Chunk.as_bytes).flatten = bytes
        rw [hflat, ← hsig]
        exact List.take_append_drop 8 bytes
      · exact hwf
  · rw [if_neg hsig] at h
    cases h

/-- Appending a well-formed chunk preserves the container invariant. -/
theorem png_append_wf (p : Png) (c : Chunk) (hp : Png.WF p) (hc : Chunk.WF c) :
    Png.WF (p.append_chunk c) := by
  intro x hx
  simp only [Png.append_chunk, List.mem_append, List.mem_singleton] at hx
  rcases hx with h | h
  · exact hp x h
  · subst h
    exact hc

theorem removeFirst_mem (pred : Chunk → Bool) : ∀ (l : List Chunk) (c : Chunk)
    (rest : List Chunk), removeFirst pred l = some (c, rest) → c ∈ l ∧ ∀ x ∈ rest, x ∈ l := by
  intro l
  induction l with
  | nil =>
    intro c rest h
    simp [removeFirst] at h
  | cons a t ih =>
    intro c rest h
    unfold removeFirst at h
    split_ifs at h with hp
    · simp only [Option.some.injEq, Prod.mk.injEq] at h
      obtain ⟨h1, h2⟩ := h
      subst h1
      subst h2
      exact ⟨List.mem_cons_self _ _, fun x hx => List.mem_cons_of_mem _ hx⟩
    · cases hrec : removeFirst pred t with
      | none => rw [hrec] at h; simp at h
      | some pr =>
        rw [hrec] at h
        simp only [Option.map_some', Option.some.injEq, Prod.mk.injEq] at h
        obtain ⟨h1, h2⟩ := h
        subst h1
        subst h2
        obtain ⟨hcm, hsub⟩ := ih pr.1 pr.2 (by rw [hrec])
        refine ⟨List.mem_cons_of_mem _ hcm, fun x hx => ?_⟩
        rcases List.mem_cons.mp hx with hx | hx
        · subst hx
          exact List.mem_cons_self _ _
        · exact List.mem_cons_of_mem _ (hsub x hx)

/-- Removing a chunk preserves the container invariant, and the removed
chunk itself satisfies the chunk invariant. -/
theorem png_remove_wf (p : Png) (s : List Nat) (c : Chunk) (q : Png) (hp : Png.WF p)
    (h : p.remove_chunk s = some (c, q)) : Png.WF q ∧ Chunk.WF c := by
  unfold Png.remove_chunk at h
  cases hrf : removeFirst (fun c => decide (c.chunk_type.display = some s)) p.chunks with
  | none => rw [hrf] at h; simp at h
  | some pr =>
    rw [hrf] at h
    simp only [Option.map_some', Option.some.injEq, Prod.mk.injEq] at h
    obtain ⟨h1, h2⟩ := h
    subst h1
    obtain ⟨hcm, hsub⟩ := removeFirst_mem _ p.chunks pr.1 pr.2 hrf
    constructor
    · intro x hx
      rw [← h2] at hx
      exact hp x (hsub x hx)
    · exact hp _ hcm

/-- Construction `Chunk::new` establishes the chunk invariant for byte payloads whose
length fits in 32 bits. -/
theorem chunk_new_wf (t : ChunkType) (p : List Nat) (ht : WellFormedBytes t.bytes)
    (hp : ∀ b ∈ p, b < 256) (hlen : p.length < 2 ^ 32) : Chunk.WF (Chunk.new t p) := by
  refine ⟨ht, ?_, ?_, hp, rfl⟩
  · show p.length = p.length % 4294967296
    omega
  · show p.length % 4294967296 < 4294967296
    omega

end Pngme

namespace Pngme

theorem sliceGet_none_iff (l : List Nat) (a b : Nat) :
    sliceGet l a b = none ↔ ¬(a ≤ b ∧ b ≤ l.length) := by
  unfold sliceGet
  split
  · rename_i h
    simp [h]
  · rename_i h
    simp [h]

theorem slice1_eval (raw : List Nat) (h : 4 ≤ raw.length) :
    sliceGet raw 0 4 = some (raw.take 4) := by
  unfold sliceGet
  rw [if_pos ⟨by omega, h⟩]
  simp

theorem slice2_eval (raw : List Nat) (h : 8 ≤ raw.length) :
    sliceGet raw 4 8 = some ((raw.drop 4).take 4) := by
  unfold sliceGet
  rw [if_pos ⟨by omega, h⟩]

theorem slice3_eval (raw : List Nat) (d : Nat) (h : 8 + d ≤ raw.length) :
    sliceGet raw 8 (8 + d) = some ((raw.drop 8).take d) := by
  unfold sliceGet
  rw [if_pos ⟨by omega, h⟩]
  rw [Nat.add_sub_cancel_left]

theorem slice4_eval (raw : List Nat) (d : Nat) (h : 8 + d + 4 ≤ raw.length) :
    sliceGet raw (8 + d) (8 + d + 4) = some ((raw.drop (8 + d)).take 4) := by
  unfold sliceGet
  rw [if_pos ⟨by omega, h⟩]
  rw [Nat.add_sub_cancel_left]

/-- A buffer shorter than 8 bytes fails the length or type read. -/
theorem tf_eval_short_lt8 (raw : List Nat) (h : raw.length < 8) :
    Chunk.try_from raw = .error .ChunkTooShort := by
  unfold Chunk.try_from
  by_cases h4 : raw.length < 4
  · rw [(sliceGet_none_iff raw 0 4).mpr (by omega)]
  · rw [slice1_eval raw (by omega)]
    rw [(sliceGet_none_iff raw 4 8).mpr (by omega)]

/-- With at least 8 bytes and an invalid type field, parsing reports the
nested type error. -/
theorem tf_eval_badtype (raw : List Nat) (e : ChunkTypeParseError) (h8 : 8 ≤ raw.length)
    (he : ChunkType.try_from ((raw.drop 4).take 4) = .error e) :
    Chunk.try_from raw = .error (.InvalidChunkType e) := by
  unfold Chunk.try_from
  rw [slice1_eval raw (by omega), slice2_eval raw h8]
  simp only [he]

/-- With a valid type but fewer bytes than `12 + declared length`, the
data or checksum read fails. -/
theorem tf_eval_short_data (raw : List Nat) (t : ChunkType) (h8 : 8 ≤ raw.length)
    (ht : ChunkType.try_from ((raw.drop 4).take 4) = .ok t)
    (hlt : raw.length < 12 + fromBe32 (raw.take 4)) :
    Chunk.try_from raw = .error .ChunkTooShort := by
  unfold Chunk.try_from
  rw [slice1_eval raw (by omega), slice2_eval raw h8]
  simp only [ht]
  by_cases hd : 8 + fromBe32 (raw.take 4) ≤ raw.length
  · rw [slice3_eval raw _ hd]
    rw [(sliceGet_none_iff raw _ _).mpr (by omega)]
  · rw [(sliceGet_none_iff raw 8 (8 + fromBe32 (raw.take 4))).mpr (by omega)]

/-- With a valid type and enough bytes, the outcome is decided by the
checksum comparison and then the trailing-bytes check. -/
theorem tf_eval_rest (raw : List Nat) (t : ChunkType) (h8 : 8 ≤ raw.length)
    (ht : ChunkType.try_from ((raw.drop 4).take 4) = .ok t)
    (hge : 12 + fromBe32 (raw.take 4) ≤ raw.length) :
    Chunk.try_from raw =
      (if Chunk.calculate_crc t ((raw.drop 8).take (fromBe32 (raw.take 4))) =
          fromBe32 ((raw.drop (8 + fromBe32 (raw.take 4))).take 4) then
        (if 12 + fromBe32 (raw.take 4) < raw.length then .error .ChunkTooLong
         else .ok
           { length := fromBe32 (raw.take 4)
             chunk_type := t
             data := (raw.drop 8).take (fromBe32 (raw.take 4))
             crc := fromBe32 ((raw.drop (8 + fromBe32 (raw.take 4))).take 4) })
       else .error (.InvalidCrc (fromBe32 ((raw.drop (8 + fromBe32 (raw.take 4))).take 4))
         (Chunk.calculate_crc t ((raw.drop 8).take (fromBe32 (raw.take 4)))))) := by
  unfold Chunk.try_from
  simp only [slice1_eval raw (show 4 ≤ raw.length by omega), slice2_eval raw h8, ht,
    slice3_eval raw _ (show 8 + fromBe32 (raw.take 4) ≤ raw.length by omega),
    slice4_eval raw _ (show 8 + fromBe32 (raw.take 4) + 4 ≤ raw.length by omega)]
  by_cases hcrc : Chunk.calculate_crc t ((raw.drop 8).take (fromBe32 (raw.take 4))) =
      fromBe32 ((raw.drop (8 + fromBe32 (raw.take 4))).take 4)
  · rw [if_neg (by simp [hcrc]), if_pos hcrc]
    by_cases htr : 12 + fromBe32 (raw.take 4) < raw.length
    · rw [if_pos (show 8 + fromBe32 (raw.take 4) + 4 < raw.length by omega), if_pos htr]
    · rw [if_neg (show ¬(8 + fromBe32 (raw.take 4) + 4 < raw.length) by omega), if_neg htr]
  · rw [if_pos hcrc, if_neg hcrc]

end Pngme

namespace Pngme

theorem chunktype_eta (t : ChunkType) (l : List Nat) (h : t.bytes = l) : t = ⟨l⟩ := by
  cases t
  simp only [ChunkType.bytes] at h
  rw [h]

/-- Error `ChunkTooShort` is returned exactly when the buffer lacks the bytes
for the next read: fewer than 8 bytes for length and type, or (with a
valid type) fewer than `12 + declared` for data and checksum. -/
theorem chunk_too_short_iff (raw : List Nat) :
    Chunk.try_from raw = .error .ChunkTooShort ↔
      raw.length < 8 ∨ ((∃ t, ChunkType.try_from ((raw.drop 4).take 4) = .ok t) ∧
        raw.length < 12 + fromBe32 (raw.take 4)) := by
  constructor
  · intro h
    by_cases h8 : raw.length < 8
    · exact Or.inl h8
    · right
      cases ht : ChunkType.try_from ((raw.drop 4).take 4) with
      | error e =>
        rw [tf_eval_badtype raw e (by omega) ht] at h
        simp at h
      | ok t =>
        refine ⟨⟨t, rfl⟩, ?_⟩
        by_cases hge : 12 + fromBe32 (raw.take 4) ≤ raw.length
        · rw [tf_eval_rest raw t (by omega) ht hge] at h
          split_ifs at h <;> simp at h
        · omega
  · intro h
    rcases h with h8 | ⟨⟨t, ht⟩, hlt⟩
    · exact tf_eval_short_lt8 raw h8
    · by_cases h8 : raw.length < 8
      · exact tf_eval_short_lt8 raw h8
      · exact tf_eval_short_data raw t (by omega) ht hlt

/-- Error `ChunkTooLong` is returned exactly when the buffer holds a valid type,
more than `12 + declared` bytes, and the checksum comparison passes (the
trailing-bytes check runs only after the checksum check). -/
theorem chunk_too_long_iff (raw : List Nat) :
    Chunk.try_from raw = .error .ChunkTooLong ↔
      (∃ t, ChunkType.try_from ((raw.drop 4).take 4) = .ok t) ∧
        12 + fromBe32 (raw.take 4) < raw.length ∧
        Chunk.calculate_crc ⟨(raw.drop 4).take 4⟩ ((raw.drop 8).take (fromBe32 (raw.take 4))) =
          fromBe32 ((raw.drop (8 + fromBe32 (raw.take 4))).take 4) := by
  constructor
  · intro h
    by_cases h8 : raw.length < 8
    · rw [tf_eval_short_lt8 raw h8] at h
      simp at h
    · cases ht : ChunkType.try_from ((raw.drop 4).take 4) with
      | error e =>
        rw [tf_eval_badtype raw e (by omega) ht] at h
        simp at h
      | ok t =>
        have htb : t = ⟨(raw.drop 4).take 4⟩ :=
          chunktype_eta t _ (ChunkType.try_from_ok _ t ht).1
        by_cases hge : 12 + fromBe32 (raw.take 4) ≤ raw.length
        · rw [tf_eval_rest raw t (by omega) ht hge] at h
          split_ifs at h with hc htr
          · exact ⟨⟨t, rfl⟩, htr, by rw [← htb]; exact hc⟩
          · simp at h
        · rw [tf_eval_short_data raw t (by omega) ht (by omega)] at h
          simp at h
  · rintro ⟨⟨t, ht⟩, htr, hcrc⟩
    have h8 : 8 ≤ raw.length := by omega
    have htb : t = ⟨(raw.drop 4).take 4⟩ :=
      chunktype_eta t _ (ChunkType.try_from_ok _ t ht).1
    rw [tf_eval_rest raw t h8 ht (by omega)]
    rw [if_pos (by rw [htb]; exact hcrc), if_pos htr]

end Pngme

namespace Pngme

theorem fromBe32_set_ne (n v j : Nat) (hn : n < 2 ^ 32) (hv : v < 256) (hj : j < 4)
    (hne : v ≠ (toBe32 n).getD j 0) : fromBe32 ((toBe32 n).set j v) ≠ n := by
  interval_cases j <;>
    simp only [toBe32, List.getD_cons_zero, List.getD_cons_succ, List.set] at hne ⊢ <;>
    simp only [fromBe32, List.getD_cons_zero, List.getD_cons_succ] <;>
    intro hcon <;> apply hne <;> omega

/-- Tampering with byte `j` of the serialized checksum field of a parsed
chunk makes re-parsing fail with `InvalidCrc`, reporting the tampered
declared value as `expected` and the recomputed checksum as `actual`. -/
theorem chunk_tamper_crc (raw : List Nat) (c : Chunk) (j v : Nat) (hb : ∀ x ∈ raw, x < 256)
    (h : Chunk.try_from raw = .ok c) (hj : j < 4) (hv : v < 256)
    (hne : v ≠ raw.getD (8 + c.length + j) 0) :
    Chunk.try_from (raw.set (8 + c.length + j) v) =
      .error (.InvalidCrc (fromBe32 ((toBe32 c.crc).set j v))
        (Chunk.calculate_crc c.chunk_type c.data)) := by
  obtain ⟨heq, hwf, hrawlen⟩ := chunk_try_from_ok_inv raw c hb h
  obtain ⟨htype, hdlen, hlen32, hdata, hcrc⟩ := hwf
  have hcrclt : c.crc < 2 ^ 32 := by
    rw [hcrc]
    exact calculate_crc_lt _ _ (wf_bytes_lt _ htype) hdata
  have hPlen : ((toBe32 c.length ++ c.chunk_type.bytes) ++ c.data).length = 8 + c.length := by
    simp [List.length_append, toBe32_length, htype.1, hdlen]
    omega
  have hset : raw.set (8 + c.length + j) v =
      toBe32 c.length ++ c.chunk_type.bytes ++ c.data ++ (toBe32 c.crc).set j v := by
    rw [heq]
    show ((toBe32 c.length ++ c.chunk_type.bytes ++ c.data) ++ toBe32 c.crc).set
        (8 + c.length + j) v = _
    rw [List.set_append_right _ _ (by rw [hPlen]; omega)]
    rw [hPlen]
    have hjj : 8 + c.length + j - (8 + c.length) = j := by omega
    rw [hjj]
  have hold : raw.getD (8 + c.length + j) 0 = (toBe32 c.crc).getD j 0 := by
    rw [heq]
    show (((toBe32 c.length ++ c.chunk_type.bytes ++ c.data) ++ toBe32 c.crc)).getD
        (8 + c.length + j) 0 = _
    rw [List.getD_eq_getElem?_getD, List.getElem?_append_right (by rw [hPlen]; omega)]
    rw [hPlen]
    have hjj : 8 + c.length + j - (8 + c.length) = j := by omega
    rw [hjj, ← List.getD_eq_getElem?_getD]
  rw [hold] at hne
  have hsetlen : ((toBe32 c.crc).set j v).length = 4 := by
    simp [List.length_set, toBe32_length]
  obtain ⟨hs0, hs1, hs2, hs3⟩ := slice_of_chunk_bytes (toBe32 c.length) c.chunk_type.bytes
    c.data ((toBe32 c.crc).set j v) (toBe32_length _) htype.1 hsetlen
  rw [hdlen] at hs2 hs3
  have hflen : fromBe32 (toBe32 c.length) = c.length := fromBe32_toBe32 _ hlen32
  have htf : ChunkType.try_from c.chunk_type.bytes = .ok c.chunk_type :=
    ChunkType.try_from_wf _ htype
  have hmis : Chunk.calculate_crc c.chunk_type c.data ≠
      fromBe32 ((toBe32 c.crc).set j v) := by
    intro hcon
    apply fromBe32_set_ne c.crc v j hcrclt hv hj hne
    rw [← hcon, ← hcrc]
  rw [hset]
  unfold Chunk.try_from
  simp only [hs0, hflen, hs1, htf, hs2, hs3]
  rw [if_pos hmis]

end Pngme

namespace Pngme

theorem slice_empty (l : List Nat) (a : Nat) (h : a ≤ l.length) :
    sliceGet l a a = some [] := by
  unfold sliceGet
  rw [if_pos ⟨le_rfl, h⟩]
  simp

theorem take_four_replicate (m : Nat) (a : Nat) :
    (List.replicate (m + 4) a).take 4 = [a, a, a, a] := rfl

/-- Serializing a chunk whose payload length is a positive multiple of
`2 ^ 32` truncates the length field to zero, so re-parsing reads no
payload, takes the first four payload bytes as the declared checksum, and
fails the checksum check (`3565422908` is the CRC-32 of `"RuSt"` alone). -/
theorem chunk_new_overflow (D : List Nat) (hmod : D.length % 4294967296 = 0)
    (h4 : D.take 4 = [0, 0, 0, 0]) (hge : 4 ≤ D.length) :
    Chunk.try_from (Chunk.new ⟨[82, 117, 83, 116]⟩ D).as_bytes =
      .error (.InvalidCrc 0 3565422908) := by
  have hlen : (Chunk.new ⟨[82, 117, 83, 116]⟩ D).length = 0 := hmod
  have hbytes : (Chunk.new ⟨[82, 117, 83, 116]⟩ D).as_bytes =
      [0, 0, 0, 0] ++ [82, 117, 83, 116] ++ D ++
        toBe32 (Chunk.new ⟨[82, 117, 83, 116]⟩ D).crc := by
    unfold Chunk.as_bytes
    rw [hlen]
    rfl
  obtain ⟨hs0, hs1, hs2, hs3⟩ := slice_of_chunk_bytes [0, 0, 0, 0] [82, 117, 83, 116] D
    (toBe32 (Chunk.new ⟨[82, 117, 83, 116]⟩ D).crc) rfl rfl (toBe32_length _)
  have hBlen : ([0, 0, 0, 0] ++ [82, 117, 83, 116] ++ D ++
      toBe32 (Chunk.new ⟨[82, 117, 83, 116]⟩ D).crc).length = 12 + D.length := by
    simp [List.length_append, toBe32_length]
    omega
  have hsE : sliceGet ([0, 0, 0, 0] ++ [82, 117, 83, 116] ++ D ++
      toBe32 (Chunk.new ⟨[82, 117, 83, 116]⟩ D).crc) 8 8 = some [] := by
    apply slice_empty
    rw [hBlen]
    omega
  have hsC : sliceGet ([0, 0, 0, 0] ++ [82, 117, 83, 116] ++ D ++
      toBe32 (Chunk.new ⟨[82, 117, 83, 116]⟩ D).crc) 8 12 = some [0, 0, 0, 0] := by
    unfold sliceGet
    rw [if_pos ⟨by omega, by rw [hBlen]; omega⟩]
    rw [show ([0, 0, 0, 0] ++ [82, 117, 83, 116] ++ D ++
        toBe32 (Chunk.new ⟨[82, 117, 83, 116]⟩ D).crc) =
        (([0, 0, 0, 0] ++ [82, 117, 83, 116]) ++ (D ++
        toBe32 (Chunk.new ⟨[82, 117, 83, 116]⟩ D).crc)) from by
      simp [List.append_assoc]]
    rw [drop_exact ([0, 0, 0, 0] ++ [82, 117, 83, 116]) _ 8 (by simp)]
    rw [List.take_append_eq_append_take]
    rw [show (12 : Nat) - 8 = 4 from rfl, h4, Nat.sub_eq_zero_of_le hge]
    rfl
  have htf : ChunkType.try_from [82, 117, 83, 116] = .ok ⟨[82, 117, 83, 116]⟩ := by decide
  have hcalc : Chunk.calculate_crc ⟨[82, 117, 83, 116]⟩ [] = 3565422908 := by decide
  rw [hbytes]
  unfold Chunk.try_from
  simp only [hs0, hs1, htf, show fromBe32 [0, 0, 0, 0] = 0 from rfl, Nat.add_zero, hsE,
    show (8 : Nat) + 4 = 12 from rfl, hsC, hcalc]
  rw [if_pos (by decide)]

end Pngme

namespace Pngme

/-- On any successful parse the returned chunk's crc is the recomputed
checksum and its data length matches its length field. -/
theorem chunk_try_from_fields (raw : List Nat) (c : Chunk) (h : Chunk.try_from raw = .ok c) :
    c.crc = Chunk.calculate_crc c.chunk_type c.data ∧ c.data.length = c.length := by
  unfold Chunk.try_from at h
  cases hs0 : sliceGet raw 0 4 with
  | none => rw [hs0] at h; simp at h
  | some lb =>
    rw [hs0] at h
    cases hs1 : sliceGet raw 4 8 with
    | none => simp only [hs1] at h; simp at h
    | some tb =>
      simp only [hs1] at h
      cases htf : ChunkType.try_from tb with
      | error e => simp only [htf] at h; simp at h
      | ok ct =>
        simp only [htf] at h
        cases hs2 : sliceGet raw 8 (8 + fromBe32 lb) with
        | none => simp only [hs2] at h; simp at h
        | some data =>
          simp only [hs2] at h
          cases hs3 : sliceGet raw (8 + fromBe32 lb) (8 + fromBe32 lb + 4) with
          | none => simp only [hs3] at h; simp at h
          | some cb =>
            simp only [hs3] at h
            by_cases hcrc : Chunk.calculate_crc ct data ≠ fromBe32 cb
            · rw [if_pos hcrc] at h; simp at h
            · rw [if_neg hcrc] at h
              by_cases htrail : 8 + fromBe32 lb + 4 < raw.length
              · rw [if_pos htrail] at h; simp at h
              · rw [if_neg htrail] at h
                simp only [Except.ok.injEq] at h
                subst h
                refine ⟨(not_not.mp hcrc).symm, ?_⟩
                obtain ⟨hab2, hbl2, hdata⟩ :=
                  (sliceGet_some_iff raw data 8 (8 + fromBe32 lb)).mp hs2
                rw [hdata]
                simp [List.length_take, List.length_drop]
                omega

/-- C1 (amended): for every well-formed chunk type `t` and byte payload
`p` whose length fits in 32 bits, parsing the serialization of
`Chunk::new(t, p)` succeeds and yields a chunk equal to `Chunk::new(t, p)`
in all four fields. -/
theorem claim1_chunk_roundtrip (t : ChunkType) (p : List Nat)
    (ht : WellFormedBytes t.bytes) (hp : ∀ b ∈ p, b < 256) (hlen : p.length < 2 ^ 32) :
    Chunk.try_from (Chunk.new t p).as_bytes = .ok (Chunk.new t p) :=
  chunk_roundtrip_wf _ (chunk_new_wf t p ht hp hlen)

/-- C1 witness: the round trip at the repository's test fixture. -/
theorem claim1_chunk_roundtrip_witness :
    WellFormedBytes (ChunkType.mk rustTypeBytes).bytes ∧
      Chunk.try_from (Chunk.new ⟨rustTypeBytes⟩ testMessage).as_bytes =
        .ok (Chunk.new ⟨rustTypeBytes⟩ testMessage) :=
  ⟨by decide, claim1_chunk_roundtrip ⟨rustTypeBytes⟩ testMessage (by decide) (by decide)
    (by decide)⟩

/-- C1 counterexample: with the `"RuSt"` type and a payload of `2 ^ 32`
zero bytes, `Chunk::new` truncates the length field (`as u32`), so parsing
the serialization fails with a checksum mismatch instead of returning the
chunk: the claim as stated is false for payloads of `2 ^ 32` bytes or
more. -/
theorem claim1_counterexample :
    Chunk.try_from (Chunk.new ⟨[82, 117, 83, 116]⟩ (List.replicate 4294967296 0)).as_bytes ≠
        .ok (Chunk.new ⟨[82, 117, 83, 116]⟩ (List.replicate 4294967296 0)) ∧
      Chunk.try_from (Chunk.new ⟨[82, 117, 83, 116]⟩ (List.replicate 4294967296 0)).as_bytes =
        .error (.InvalidCrc 0 3565422908) := by
  have h := chunk_new_overflow (List.replicate 4294967296 0)
    (by rw [List.length_replicate])
    (by rw [show (4294967296 : Nat) = 4294967292 + 4 from by norm_num]
        exact take_four_replicate _ _)
    (by rw [List.length_replicate]; omega)
  refine ⟨fun hcon => ?_, h⟩
  rw [h] at hcon
  exact Except.noConfusion hcon

/-- C2: serializing a container built from in-core operations, parsing the
bytes, and serializing again is byte-exact (parsing even recovers the very
container); container serialization is the exact inverse of container
parsing for any successfully parsed container; and the in-core operations
(parse, append, remove) establish and preserve the container invariant. -/
theorem claim2_container_roundtrip :
    (∀ p : Png, Png.WF p → Png.try_from p.as_bytes = .ok p) ∧
    (∀ (bytes : List Nat) (p : Png), (∀ x ∈ bytes, x < 256) →
      Png.try_from bytes = .ok p → p.as_bytes = bytes ∧ Png.WF p) ∧
    (∀ (p : Png) (c : Chunk), Png.WF p → Chunk.WF c → Png.WF (p.append_chunk c)) ∧
    (∀ (p : Png) (s : List Nat) (c : Chunk) (q : Png), Png.WF p →
      p.remove_chunk s = some (c, q) → Png.WF q) :=
  ⟨png_roundtrip_wf, png_try_from_ok_inv, png_append_wf,
    fun p s c q hp h => (png_remove_wf p s c q hp h).1⟩

/-- C2 witness: the round trip on a container holding one test chunk. -/
theorem claim2_container_roundtrip_witness :
    Png.WF ⟨[Chunk.new ⟨rustTypeBytes⟩ testMessage]⟩ ∧
      Png.try_from (Png.as_bytes ⟨[Chunk.new ⟨rustTypeBytes⟩ testMessage]⟩) =
        .ok ⟨[Chunk.new ⟨rustTypeBytes⟩ testMessage]⟩ := by
  have hwf : Png.WF ⟨[Chunk.new ⟨rustTypeBytes⟩ testMessage]⟩ := by
    intro c hc
    simp only [List.mem_singleton] at hc
    subst hc
    exact ⟨by decide, by decide, by decide, by decide, rfl⟩
  exact ⟨hwf, claim2_container_roundtrip.1 _ hwf⟩

/-- C3: the crc stored by `Chunk::new` and accepted by `Chunk::try_from`
is the CRC-32/ISO-HDLC checksum of the type bytes followed by the payload,
and on the `"RuSt"` test fixture it equals `2882656334` with stored length
`42`, the payload's byte count. -/
theorem claim3_crc :
    (∀ (t : ChunkType) (p : List Nat), (Chunk.new t p).crc = crc32 (t.bytes ++ p)) ∧
    (∀ (raw : List Nat) (c : Chunk), Chunk.try_from raw = .ok c →
      c.crc = crc32 (c.chunk_type.bytes ++ c.data)) ∧
    (Chunk.new ⟨rustTypeBytes⟩ testMessage).crc = 2882656334 ∧
    (Chunk.new ⟨rustTypeBytes⟩ testMessage).length = testMessage.length ∧
    testMessage.length = 42 :=
  ⟨fun _ _ => rfl, fun raw c h => (chunk_try_from_fields raw c h).1, by decide, by decide,
    by decide⟩

/-- C3 witness: the verification clause at the serialized test chunk. -/
theorem claim3_crc_witness :
    Chunk.try_from (Chunk.new ⟨rustTypeBytes⟩ testMessage).as_bytes =
        .ok (Chunk.new ⟨rustTypeBytes⟩ testMessage) ∧
      (Chunk.new ⟨rustTypeBytes⟩ testMessage).crc =
        crc32 ((Chunk.new ⟨rustTypeBytes⟩ testMessage).chunk_type.bytes ++
          (Chunk.new ⟨rustTypeBytes⟩ testMessage).data) :=
  ⟨by decide, claim3_crc.2.1 (Chunk.new ⟨rustTypeBytes⟩ testMessage).as_bytes
    (Chunk.new ⟨rustTypeBytes⟩ testMessage) (by decide)⟩

/-- C4: for payloads whose length fits in 32 bits, `Chunk::new` stores a
length equal to the payload's byte count, and every chunk a parse produces
has its length field equal to its data's byte length. -/
theorem claim4_length :
    (∀ (t : ChunkType) (p : List Nat), p.length < 2 ^ 32 →
      (Chunk.new t p).length = p.length) ∧
    (∀ (raw : List Nat) (c : Chunk), Chunk.try_from raw = .ok c →
      c.data.length = c.length) := by
  constructor
  · intro t p hlen
    show p.length % 4294967296 = p.length
    omega
  · intro raw c h
    exact (chunk_try_from_fields raw c h).2

/-- C4 witness: the length field at the test fixture. -/
theorem claim4_length_witness :
    testMessage.length < 2 ^ 32 ∧
      (Chunk.new ⟨rustTypeBytes⟩ testMessage).length = testMessage.length :=
  ⟨by decide, claim4_length.1 ⟨rustTypeBytes⟩ testMessage (by decide)⟩

/-- C5: altering any single byte of the declared-checksum field of a
successfully parsed slice makes re-parsing fail with `InvalidCrc`, whose
`expected` field is the tampered declared value and whose `actual` field
is the checksum recomputed over the type bytes and payload. -/
theorem claim5_crc_tamper (raw : List Nat) (c : Chunk) (j v : Nat)
    (hb : ∀ x ∈ raw, x < 256) (h : Chunk.try_from raw = .ok c) (hj : j < 4) (hv : v < 256)
    (hne : v ≠ raw.getD (8 + c.length + j) 0) :
    Chunk.try_from (raw.set (8 + c.length + j) v) =
      .error (.InvalidCrc (fromBe32 ((toBe32 c.crc).set j v))
        (Chunk.calculate_crc c.chunk_type c.data)) :=
  chunk_tamper_crc raw c j v hb h hj hv hne

/-- C5 witness: zeroing the last checksum byte of the serialized test
chunk. -/
theorem claim5_crc_tamper_witness :
    Chunk.try_from ((Chunk.new ⟨rustTypeBytes⟩ testMessage).as_bytes.set
        (8 + (Chunk.new ⟨rustTypeBytes⟩ testMessage).length + 3) 0) =
      .error (.InvalidCrc
        (fromBe32 ((toBe32 (Chunk.new ⟨rustTypeBytes⟩ testMessage).crc).set 3 0))
        (Chunk.calculate_crc (Chunk.new ⟨rustTypeBytes⟩ testMessage).chunk_type
          (Chunk.new ⟨rustTypeBytes⟩ testMessage).data)) :=
  claim5_crc_tamper (Chunk.new ⟨rustTypeBytes⟩ testMessage).as_bytes
    (Chunk.new ⟨rustTypeBytes⟩ testMessage) 3 0 (by decide) (by decide) (by decide) (by decide)
    (by decide)

/-- C6: `ChunkTooShort` is returned exactly when the slice lacks the bytes
for the next read in the fixed order (length and type within the first 8
bytes, then declared payload and checksum within `12 + length`), and
`ChunkTooLong` exactly when bytes remain beyond the consumed `12 + length`
while the checksum check (performed first) passed. -/
theorem claim6_short_long (raw : List Nat) :
    (Chunk.try_from raw = .error .ChunkTooShort ↔
      raw.length < 8 ∨ ((∃ t, ChunkType.try_from ((raw.drop 4).take 4) = .ok t) ∧
        raw.length < 12 + fromBe32 (raw.take 4))) ∧
    (Chunk.try_from raw = .error .ChunkTooLong ↔
      (∃ t, ChunkType.try_from ((raw.drop 4).take 4) = .ok t) ∧
        12 + fromBe32 (raw.take 4) < raw.length ∧
        Chunk.calculate_crc ⟨(raw.drop 4).take 4⟩ ((raw.drop 8).take (fromBe32 (raw.take 4))) =
          fromBe32 ((raw.drop (8 + fromBe32 (raw.take 4))).take 4)) :=
  ⟨chunk_too_short_iff raw, chunk_too_long_iff raw⟩

/-- C6 witness: the empty slice is reported as too short. -/
theorem claim6_short_long_witness :
    Chunk.try_from ([] : List Nat) = .error .ChunkTooShort :=
  (claim6_short_long []).1.mpr (Or.inl (by decide))

/-- C7: each flag tests bit `0x20` of its byte (critical, public and
reserved-bit-valid hold when clear, safe-to-copy when set), overall
validity coincides with reserved-bit validity for every chunk type, and
the `"RuSt"` literal has the stated flag values. -/
theorem claim7_flags (t : ChunkType) (b0 b1 b2 b3 : Nat) (h : t.bytes = [b0, b1, b2, b3]) :
    (t.is_critical = true ↔ Nat.land b0 32 = 0) ∧
    (t.is_public = true ↔ Nat.land b1 32 = 0) ∧
    (t.is_reserved_bit_valid = true ↔ Nat.land b2 32 = 0) ∧
    (t.is_safe_to_copy = true ↔ Nat.land b3 32 ≠ 0) ∧
    (∀ u : ChunkType, u.is_valid = u.is_reserved_bit_valid) ∧
    (ChunkType.mk [82, 117, 83, 116]).is_critical = true ∧
    (ChunkType.mk [82, 117, 83, 116]).is_public = false ∧
    (ChunkType.mk [82, 117, 83, 116]).is_reserved_bit_valid = true ∧
    (ChunkType.mk [82, 117, 83, 116]).is_safe_to_copy = true ∧
    (ChunkType.mk [82, 117, 83, 116]).is_valid = true := by
  obtain ⟨bs⟩ := t
  have hb : bs = [b0, b1, b2, b3] := h
  subst hb
  refine ⟨?_, ?_, ?_, ?_, fun u => rfl, by decide, by decide, by decide, by decide, by decide⟩
  all_goals
    simp [ChunkType.is_critical, ChunkType.is_public, ChunkType.is_reserved_bit_valid,
      ChunkType.is_safe_to_copy, ChunkType.is_5th_bit_set, ChunkType.byteAt]
  all_goals omega

/-- C7 witness: the flag characterization at the `"RuSt"` bytes. -/
theorem claim7_flags_witness :
    ((ChunkType.mk [82, 117, 83, 116]).is_critical = true ↔ Nat.land 82 32 = 0) ∧
    ((ChunkType.mk [82, 117, 83, 116]).is_public = true ↔ Nat.land 117 32 = 0) ∧
    ((ChunkType.mk [82, 117, 83, 116]).is_reserved_bit_valid = true ↔ Nat.land 83 32 = 0) ∧
    ((ChunkType.mk [82, 117, 83, 116]).is_safe_to_copy = true ↔ Nat.land 116 32 ≠ 0) ∧
    (∀ u : ChunkType, u.is_valid = u.is_reserved_bit_valid) ∧
    (ChunkType.mk [82, 117, 83, 116]).is_critical = true ∧
    (ChunkType.mk [82, 117, 83, 116]).is_public = false ∧
    (ChunkType.mk [82, 117, 83, 116]).is_reserved_bit_valid = true ∧
    (ChunkType.mk [82, 117, 83, 116]).is_safe_to_copy = true ∧
    (ChunkType.mk [82, 117, 83, 116]).is_valid = true :=
  claim7_flags ⟨[82, 117, 83, 116]⟩ 82 117 83 116 rfl

/-- C8: construction succeeds on any 4 ASCII-alphabetic bytes and Display
renders exactly those bytes, and rendering is the exact inverse of
construction from text for every value that passed validation. -/
theorem claim8_render_roundtrip :
    (∀ b : List Nat, b.length = 4 → (∀ x ∈ b, isAsciiAlpha x = true) →
      ChunkType.try_from b = .ok ⟨b⟩ ∧ (ChunkType.mk b).display = some b) ∧
    (∀ (s : List Nat) (t : ChunkType), ChunkType.from_str s = .ok t →
      t.display = some s) := by
  constructor
  · intro b hlen halpha
    exact ⟨ChunkType.try_from_wf b ⟨hlen, halpha⟩,
      ChunkType.display_wf ⟨b⟩ ⟨hlen, halpha⟩⟩
  · intro s t h
    obtain ⟨hbytes, hwf⟩ := ChunkType.from_str_ok s t h
    have := ChunkType.display_wf t (by rw [hbytes]; exact hwf)
    rw [this, hbytes]

/-- C8 witness: the render round trip at the `"RuSt"` bytes. -/
theorem claim8_render_roundtrip_witness :
    ChunkType.try_from rustTypeBytes = .ok ⟨rustTypeBytes⟩ ∧
      (ChunkType.mk rustTypeBytes).display = some rustTypeBytes :=
  claim8_render_roundtrip.1 rustTypeBytes (by decide) (by decide)

/-- C9: construction from text rejects non-4-byte inputs with
`InvalidLength`; construction from 4 raw bytes rejects invalid UTF-8 with
`InvalidUtf8` (before the alphabetic check), otherwise reports the first
non-ASCII-alphabetic character as `InvalidCharacter`; and construction
succeeds exactly on 4 ASCII-alphabetic bytes. -/
theorem claim9_type_errors :
    (∀ s : List Nat, s.length ≠ 4 → ChunkType.from_str s = .error (.InvalidLength s.length)) ∧
    (∀ b : List Nat, b.length = 4 → utf8DecodeAux b = none →
      ChunkType.try_from b = .error .InvalidUtf8) ∧
    (∀ (b chars : List Nat) (c : Nat), b.length = 4 → utf8DecodeAux b = some chars →
      chars.find? (fun x => !isAsciiAlpha x) = some c →
      ChunkType.try_from b = .error (.InvalidCharacter c)) ∧
    (∀ b : List Nat, (∃ t, ChunkType.try_from b = .ok t) ↔
      (b.length = 4 ∧ ∀ x ∈ b, isAsciiAlpha x = true)) := by
  refine ⟨ChunkType.from_str_invalid_length, ChunkType.try_from_invalid_utf8,
    ChunkType.try_from_invalid_char, fun b => ⟨?_, ?_⟩⟩
  · intro ⟨t, ht⟩
    exact (ChunkType.try_from_ok b t ht).2
  · intro hwf
    exact ⟨⟨b⟩, ChunkType.try_from_wf b hwf⟩

/-- C9 witness: the length error on a 2-byte string and the character
error on `"Ru1t"`. -/
theorem claim9_type_errors_witness :
    ChunkType.from_str [82, 117] = .error (.InvalidLength 2) ∧
      ChunkType.try_from [82, 117, 49, 116] = .error (.InvalidCharacter 49) :=
  ⟨claim9_type_errors.1 [82, 117] (by decide),
    claim9_type_errors.2.2.1 [82, 117, 49, 116] [82, 117, 49, 116] 49 (by decide) (by decide)
      (by decide)⟩

/-- C10: for every chunk type produced by either validating constructor,
Display cannot panic: the stored bytes re-decode as UTF-8, so rendering
returns them. -/
theorem claim10_display_total (x : List Nat) (t : ChunkType)
    (h : ChunkType.try_from x = .ok t ∨ ChunkType.from_str x = .ok t) :
    t.display = some t.bytes := by
  rcases h with h | h
  · obtain ⟨hbytes, hwf⟩ := ChunkType.try_from_ok x t h
    exact ChunkType.display_wf t (by rw [hbytes]; exact hwf)
  · obtain ⟨hbytes, hwf⟩ := ChunkType.from_str_ok x t h
    exact ChunkType.display_wf t (by rw [hbytes]; exact hwf)

/-- C10 witness: Display is defined on the constructed `"RuSt"` value. -/
theorem claim10_display_total_witness :
    (ChunkType.mk rustTypeBytes).display = some (ChunkType.mk rustTypeBytes).bytes :=
  claim10_display_total rustTypeBytes ⟨rustTypeBytes⟩ (Or.inl (by decide))

end Pngme
